import Mathlib

/-!
Verification of the graph-diameter scripts of the SNT script-template
repository (`Graph_Analysis.py`, `Graph_Analysis_Demo.py`) and of the
ad-hoc statistics of `Sholl_Merge_Grouped_Profiles.py`.

The graph scripts operate on SNT `DirectedWeightedGraph` objects: directed
weighted graphs whose intended invariant is that of a rooted tree (one node
of in-degree 0, every other node of in-degree 1, acyclic, connected).  The
graph library itself (SNT's Java classes, JGraphT) is not part of the
script sources; its operations (`getShortestPath`, Dijkstra's `getPath`,
`getRoot`, `getTips`) are modelled from the specification's description of
their contracts.  The Python functions `graph_diameter` and
`graph_diameter_dsp` are translated statement by statement.

Machine floats are modelled as rationals (`ℚ`); node handles as `Nat`.
-/

namespace GraphAnalysis

/-- A directed weighted graph: a vertex list and an edge list.  Each edge is
`(source, target, weight)`.  This is the in-memory `Graph` handle of the
spec's data model (nodes with identity, directed weighted edges). -/
structure WGraph where
  vertices : List Nat
  edges : List (Nat × Nat × ℚ)
deriving DecidableEq

/-- In-degree of a node: the number of edges whose target is `v`. -/
def inDeg (g : WGraph) (v : Nat) : Nat :=
  (g.edges.filter (fun e => e.2.1 == v)).length

/-- Out-degree of a node: the number of edges whose source is `v`. -/
def outDeg (g : WGraph) (v : Nat) : Nat :=
  (g.edges.filter (fun e => e.1 == v)).length

/-- Modelled from the spec: the caller's `graph.getRoot()` comment — "the
singular node with in-degree 0".  All in-degree-0 nodes of the graph. -/
def rootsOf (g : WGraph) : List Nat :=
  g.vertices.filter (fun v => inDeg g v == 0)

/-- Modelled from the spec: the caller's `graph.getTips()` — "the set of
nodes with out-degree 0". -/
def tipsOf (g : WGraph) : List Nat :=
  g.vertices.filter (fun v => outDeg g v == 0)

/-- The (first listed) in-edge source of `v`; in a valid rooted tree every
non-root node has exactly one in-edge, so this is its unique parent. -/
def parent (g : WGraph) (v : Nat) : Option Nat :=
  match g.edges.filter (fun e => e.2.1 == v) with
  | [] => none
  | e :: _ => some e.1

/-- Weight of the (first listed) edge from `u` to `v`, 0 when absent.  In a
valid rooted tree the in-edge of `v` is unique, so this is exact there. -/
def edgeWeight (g : WGraph) (u v : Nat) : ℚ :=
  match g.edges.filter (fun e => e.1 == u && e.2.1 == v) with
  | [] => 0
  | e :: _ => e.2.2

/-- Total weight of a node sequence: the sum of the weights of its
consecutive edges.  This is `Path.getLength()` / `GraphPath.getWeight()`
for the corresponding path object. -/
def walkWeight (g : WGraph) : List Nat → ℚ
  | u :: v :: rest => edgeWeight g u v + walkWeight g (v :: rest)
  | _ => 0

/-- Does the graph contain an edge from `u` to `v`? -/
def adjB (g : WGraph) (u v : Nat) : Bool :=
  g.edges.any (fun e => e.1 == u && e.2.1 == v)

/-- `isWalk g ns` holds when `ns` is a nonempty node sequence each of whose
consecutive pairs is an edge of `g`. -/
def isWalk (g : WGraph) : List Nat → Bool
  | [] => false
  | [_] => true
  | u :: v :: rest => adjB g u v && isWalk g (v :: rest)

/-- Follow unique parent links from `v` up to `root`, accumulating the node
sequence root-first; `fuel` bounds the number of steps (the vertex count
suffices on valid trees). -/
def pathToRootAux (g : WGraph) (root : Nat) : Nat → Nat → Option (List Nat)
  | 0, _ => none
  | fuel + 1, v =>
    if v = root then some [v]
    else
      match parent g v with
      | none => none
      | some p => (pathToRootAux g root fuel p).map (fun ns => ns ++ [v])

/-- Modelled from the spec: SNT's `graph.getShortestPath(root, tip)` (the
SNT Java library is not among the script sources).  Per the spec, in a
rooted tree "there is exactly one path between any two connected nodes;
shortest path here reduces to the unique path, and its length is the sum of
edge weights along it"; the call yields null when no path exists.  The
result pairs the node sequence with its length (`Path.getLength()`). -/
def getShortestPath (g : WGraph) (root tip : Nat) : Option (List Nat × ℚ) :=
  (pathToRootAux g root g.vertices.length tip).map (fun ns => (ns, walkWeight g ns))

/-- All walks from `u` to `t` that use at most `fuel` edges. -/
def walksUpTo (g : WGraph) : Nat → Nat → Nat → List (List Nat)
  | 0, u, t => if u == t then [[u]] else []
  | fuel + 1, u, t =>
    (if u == t then [[u]] else []) ++
      (g.edges.filter (fun e => e.1 == u)).flatMap
        (fun e => (walksUpTo g fuel e.2.1 t).map (fun ns => u :: ns))

/-- Pick a minimum-weight walk from a list of walks (`none` on the empty
list). -/
def minWeightWalk (g : WGraph) : List (List Nat) → Option (List Nat × ℚ)
  | [] => none
  | ns :: rest =>
    match minWeightWalk g rest with
    | none => some (ns, walkWeight g ns)
    | some (ms, w) =>
      if walkWeight g ns ≤ w then some (ns, walkWeight g ns) else some (ms, w)

/-- Modelled from the spec: JGraphT's `DijkstraShortestPath(graph).getPath
(root, tip)` (JGraphT is an external library).  Per the spec it is "a
generic single-source-shortest-path algorithm invoked once per tip from the
root": it returns a minimum-weight path from `root` to `tip`, or null when
none exists.  Modelled as a minimum-weight walk among all walks of at most
`|V|` edges (with non-negative weights a shortest path has fewer than `|V|`
edges).  The result pairs the node sequence with `GraphPath.getWeight()`. -/
def dijkstraGetPath (g : WGraph) (root tip : Nat) : Option (List Nat × ℚ) :=
  minWeightWalk g (walksUpTo g g.vertices.length root tip)

/-- Errors a run of the Python functions can surface.  `attributeError` is
Python's error for invoking a method on `None` (a null path);
`invalidGraphError` is the spec's `InvalidGraphError`. -/
inductive PyError where
  | attributeError : PyError
  | invalidGraphError : PyError
deriving DecidableEq

/-- The `for tip in tips` loop of `graph_diameter` (Graph_Analysis.py,
lines 30–42): `max_path_length` starts at 0 and `longest_shortest_path` at
`None`; each tip's shortest path replaces them only when its length
strictly exceeds the running maximum.  A null shortest path makes
`shortest_path.getLength()` raise. -/
def graph_diameter_loop (g : WGraph) (root : Nat) :
    List Nat → ℚ → Option (List Nat × ℚ) → Except PyError (ℚ × Option (List Nat × ℚ))
  | [], maxPathLength, longestShortestPath => .ok (maxPathLength, longestShortestPath)
  | tip :: rest, maxPathLength, longestShortestPath =>
    match getShortestPath g root tip with
    | none => .error .attributeError
    | some shortestPath =>
      if maxPathLength < shortestPath.2 then
        graph_diameter_loop g root rest shortestPath.2 (some shortestPath)
      else
        graph_diameter_loop g root rest maxPathLength longestShortestPath

/-- `graph_diameter(graph, root, tips)` of Graph_Analysis.py. -/
def graph_diameter (g : WGraph) (root : Nat) (tips : List Nat) :
    Except PyError (ℚ × Option (List Nat × ℚ)) :=
  graph_diameter_loop g root tips 0 none

/-- The `for tip in tips` loop of `graph_diameter_dsp` (Graph_Analysis.py
lines 45–55; Graph_Analysis_Demo.py lines 29–40 hoists the
`DijkstraShortestPath` constructor out of the loop, which on an unchanged
graph computes the same paths). -/
def graph_diameter_dsp_loop (g : WGraph) (root : Nat) :
    List Nat → ℚ → Option (List Nat × ℚ) → Except PyError (ℚ × Option (List Nat × ℚ))
  | [], maxPathLength, longestShortestPath => .ok (maxPathLength, longestShortestPath)
  | tip :: rest, maxPathLength, longestShortestPath =>
    match dijkstraGetPath g root tip with
    | none => .error .attributeError
    | some shortestPath =>
      if maxPathLength < shortestPath.2 then
        graph_diameter_dsp_loop g root rest shortestPath.2 (some shortestPath)
      else
        graph_diameter_dsp_loop g root rest maxPathLength longestShortestPath

/-- `graph_diameter_dsp(graph, root, tips)` of Graph_Analysis.py. -/
def graph_diameter_dsp (g : WGraph) (root : Nat) (tips : List Nat) :
    Except PyError (ℚ × Option (List Nat × ℚ)) :=
  graph_diameter_dsp_loop g root tips 0 none

/-- The common shape of both loops, abstracted over the shortest-path
oracle; used only to share lemmas between the two loops. -/
def diameterFold (sp : Nat → Option (List Nat × ℚ)) :
    List Nat → ℚ → Option (List Nat × ℚ) → Except PyError (ℚ × Option (List Nat × ℚ))
  | [], m, b => .ok (m, b)
  | tip :: rest, m, b =>
    match sp tip with
    | none => .error .attributeError
    | some q =>
      if m < q.2 then diameterFold sp rest q.2 (some q)
      else diameterFold sp rest m b

/-- The spec's rooted-tree invariant for a designated root: the root is a
vertex of in-degree 0, every other vertex has in-degree exactly 1, edges
stay inside the vertex list, every vertex is reachable from the root by a
walk (connectedness; with the degree constraints this forbids cycles), and
edge weights are non-negative (the spec's data model for `Edge`). -/
def validRootedTree (g : WGraph) (root : Nat) : Prop :=
  root ∈ g.vertices ∧ g.vertices.Nodup ∧ inDeg g root = 0 ∧
  (∀ v ∈ g.vertices, v ≠ root → inDeg g v = 1) ∧
  (∀ e ∈ g.edges, e.1 ∈ g.vertices ∧ e.2.1 ∈ g.vertices) ∧
  (∀ e ∈ g.edges, 0 ≤ e.2.2) ∧
  (∀ v ∈ g.vertices, ∃ ns, isWalk g ns = true ∧ ns.head? = some root ∧ ns.getLast? = some v)

/-- Root-to-`v` path length (0 when no path exists). -/
def rootDist (g : WGraph) (root v : Nat) : ℚ :=
  ((getShortestPath g root v).map Prod.snd).getD 0

/-- State-threading form of SNT's `getShortestPath` call: modelled from the
spec, the library call is read-only over the graph ("Side effects: none;
the operation is read-only over the Graph"), so it returns the unchanged
graph alongside its result. -/
def getShortestPathST (g : WGraph) (root tip : Nat) :
    Option (List Nat × ℚ) × WGraph :=
  (getShortestPath g root tip, g)

/-- State-threading form of the `graph_diameter` loop: the graph object is
passed through every operation that touches it, so that the final graph can
be compared with the initial one. -/
def graph_diameter_loopST (root : Nat) :
    WGraph → List Nat → ℚ → Option (List Nat × ℚ) →
      Except PyError (ℚ × Option (List Nat × ℚ)) × WGraph
  | g, [], m, b => (.ok (m, b), g)
  | g, tip :: rest, m, b =>
    match getShortestPathST g root tip with
    | (none, g') => (.error .attributeError, g')
    | (some q, g') =>
      if m < q.2 then graph_diameter_loopST root g' rest q.2 (some q)
      else graph_diameter_loopST root g' rest m b

/-- State-threading form of `graph_diameter`. -/
def graph_diameterST (g : WGraph) (root : Nat) (tips : List Nat) :
    Except PyError (ℚ × Option (List Nat × ℚ)) × WGraph :=
  graph_diameter_loopST root g tips 0 none

end GraphAnalysis

namespace ShollMerge

/-- `ss(data, mean)` of Sholl_Merge_Grouped_Profiles.py: the sum of square
deviations `sum((x-mean)**2 for x in data)`. -/
def ss (data : List ℚ) (mean : ℚ) : ℚ :=
  (data.map (fun x => (x - mean) ^ 2)).sum

/-- The square of the value returned by `stdev(data, mean)` of
Sholl_Merge_Grouped_Profiles.py, i.e. the variance `svar = ss(data,mean)/n`
the script computes before its final `svar**0.5`; the square root is taken
at the statement level (`Real.sqrt`), since real square roots are not
computable.  `none` models the `float('nan')` returned when `n < 2`. -/
def stdev_sq (data : List ℚ) (mean : ℚ) : Option ℚ :=
  let n := data.length
  if n < 2 then none
  else some (ss data mean / (n : ℚ))

end ShollMerge

namespace GraphAnalysis

lemma adjB_iff {g : WGraph} {u v : Nat} :
    adjB g u v = true ↔ ∃ e ∈ g.edges, e.1 = u ∧ e.2.1 = v := by
  simp [adjB, List.any_eq_true]

lemma adjB_of_parent {g : WGraph} {v p : Nat} (h : parent g v = some p) :
    adjB g p v = true := by
  unfold parent at h
  rcases hf : g.edges.filter (fun e => e.2.1 == v) with _ | ⟨e, rest⟩
  · rw [hf] at h; exact absurd h (by simp)
  · rw [hf] at h
    simp only [Option.some.injEq] at h
    have he : e ∈ g.edges.filter (fun e => e.2.1 == v) := by rw [hf]; exact List.mem_cons_self _ _
    rw [List.mem_filter] at he
    exact adjB_iff.mpr ⟨e, he.1, h, by simpa using he.2⟩

lemma inDeg_pos_of_adjB {g : WGraph} {u v : Nat} (h : adjB g u v = true) :
    0 < inDeg g v := by
  rcases adjB_iff.mp h with ⟨e, he, h1, h2⟩
  have : e ∈ g.edges.filter (fun e => e.2.1 == v) := by
    rw [List.mem_filter]; exact ⟨he, by simpa using h2⟩
  unfold inDeg
  exact List.length_pos.mpr (fun hnil => by simp [hnil] at this)

lemma parent_eq {g : WGraph} {v u : Nat} {e : Nat × Nat × ℚ}
    (hdeg : inDeg g v = 1) (he : e ∈ g.edges) (h1 : e.1 = u) (h2 : e.2.1 = v) :
    parent g v = some u := by
  have hmem : e ∈ g.edges.filter (fun e => e.2.1 == v) := by
    rw [List.mem_filter]; exact ⟨he, by simpa using h2⟩
  unfold inDeg at hdeg
  rcases List.length_eq_one.mp hdeg with ⟨a, ha⟩
  rw [ha] at hmem
  simp only [List.mem_singleton] at hmem
  subst hmem
  unfold parent
  rw [ha]
  show some e.1 = some u
  rw [h1]

lemma isWalk_append_edge {g : WGraph} {p v : Nat} :
    ∀ {ms : List Nat}, isWalk g ms = true → ms.getLast? = some p → adjB g p v = true →
      isWalk g (ms ++ [v]) = true
  | [], hw, _, _ => by simp [isWalk] at hw
  | [x], _, hl, ha => by
    simp only [List.getLast?_singleton, Option.some.injEq] at hl
    subst hl
    simp [isWalk, ha]
  | x :: y :: rest, hw, hl, ha => by
    simp only [isWalk, Bool.and_eq_true] at hw
    have hl' : (y :: rest).getLast? = some p := by
      rw [List.getLast?_cons_cons] at hl; exact hl
    have := isWalk_append_edge hw.2 hl' ha
    simp only [List.cons_append, isWalk, Bool.and_eq_true] at this ⊢
    exact ⟨hw.1, this⟩

lemma pathToRootAux_mono {g : WGraph} {root : Nat} :
    ∀ {f f' v : Nat} {ns : List Nat}, pathToRootAux g root f v = some ns → f ≤ f' →
      pathToRootAux g root f' v = some ns := by
  intro f
  induction f with
  | zero => intro f' v ns h _; simp [pathToRootAux] at h
  | succ f ih =>
    intro f' v ns h hle
    rcases Nat.exists_eq_add_of_le hle with ⟨k, rfl⟩
    have hrw : f + 1 + k = (f + k) + 1 := by omega
    rw [hrw]
    simp only [pathToRootAux] at h ⊢
    by_cases hv : v = root
    · simpa [hv] using h
    · simp only [if_neg hv] at h ⊢
      rcases hp : parent g v with _ | p
      · rw [hp] at h; exact absurd h (by simp)
      · rw [hp] at h
        rcases Option.map_eq_some'.mp h with ⟨ms, hms, rfl⟩
        show (pathToRootAux g root (f + k) p).map (fun ns => ns ++ [v]) = some (ms ++ [v])
        rw [ih hms (Nat.le_add_right _ _)]
        rfl

lemma pathToRootAux_length_le {g : WGraph} {root : Nat} :
    ∀ {f v : Nat} {ns : List Nat}, pathToRootAux g root f v = some ns → ns.length ≤ f := by
  intro f
  induction f with
  | zero => intro v ns h; simp [pathToRootAux] at h
  | succ f ih =>
    intro v ns h
    simp only [pathToRootAux] at h
    by_cases hv : v = root
    · simp only [if_pos hv, Option.some.injEq] at h
      subst h; simp
    · simp only [if_neg hv] at h
      rcases hp : parent g v with _ | p
      · rw [hp] at h; exact absurd h (by simp)
      · rw [hp] at h
        rcases Option.map_eq_some'.mp h with ⟨ms, hms, rfl⟩
        have := ih hms
        simp only [List.length_append, List.length_singleton]
        omega

lemma pathToRootAux_spec {g : WGraph} {root : Nat} :
    ∀ {f v : Nat} {ns : List Nat}, pathToRootAux g root f v = some ns →
      isWalk g ns = true ∧ ns.head? = some root ∧ ns.getLast? = some v := by
  intro f
  induction f with
  | zero => intro v ns h; simp [pathToRootAux] at h
  | succ f ih =>
    intro v ns h
    simp only [pathToRootAux] at h
    by_cases hv : v = root
    · simp only [if_pos hv, Option.some.injEq] at h
      subst h
      simp [isWalk, hv]
    · simp only [if_neg hv] at h
      rcases hp : parent g v with _ | p
      · rw [hp] at h; exact absurd h (by simp)
      · rw [hp] at h
        rcases Option.map_eq_some'.mp h with ⟨ms, hms, rfl⟩
        rcases ih hms with ⟨hw, hh, hl⟩
        refine ⟨isWalk_append_edge hw hl (adjB_of_parent hp), ?_, ?_⟩
        · rcases ms with _ | ⟨m0, ms'⟩
          · simp at hh
          · simpa using hh
        · simp

end GraphAnalysis

namespace GraphAnalysis

lemma walk_mem_vertices {g : WGraph}
    (hedge : ∀ e ∈ g.edges, e.1 ∈ g.vertices ∧ e.2.1 ∈ g.vertices) :
    ∀ {ns : List Nat} {r : Nat}, isWalk g ns = true → ns.head? = some r →
      r ∈ g.vertices → ∀ x ∈ ns, x ∈ g.vertices
  | [], r, hw, _, _ => by simp [isWalk] at hw
  | [y], r, _, hh, hr => by
    have hy : y = r := by simpa using hh
    intro x hx
    rw [List.mem_singleton] at hx
    rw [hx, hy]
    exact hr
  | y :: z :: rest, r, hw, hh, hr => by
    have hy : y = r := by simpa using hh
    simp only [isWalk, Bool.and_eq_true] at hw
    rcases adjB_iff.mp hw.1 with ⟨e, he, h1, h2⟩
    have hz : z ∈ g.vertices := h2 ▸ (hedge e he).2
    intro x hx
    rcases List.mem_cons.mp hx with rfl | hx'
    · rw [hy]; exact hr
    · exact walk_mem_vertices hedge hw.2 rfl hz x hx'

lemma isWalk_drop_to {g : WGraph} :
    ∀ {p : List Nat} {x : Nat} {q : List Nat},
      isWalk g (p ++ (x :: q)) = true → isWalk g (x :: q) = true
  | [], _, _, h => h
  | [y], x, q, h => by
    simp only [List.cons_append, List.nil_append, isWalk, Bool.and_eq_true] at h
    exact h.2
  | y :: z :: p', x, q, h => by
    simp only [List.cons_append, isWalk, Bool.and_eq_true] at h
    exact isWalk_drop_to (p := z :: p') h.2

lemma isWalk_take_to {g : WGraph} :
    ∀ {p : List Nat} {x : Nat} {q : List Nat},
      isWalk g (p ++ (x :: q)) = true → isWalk g (p ++ [x]) = true
  | [], x, q, _ => by simp [isWalk]
  | [y], x, q, h => by
    simp only [List.cons_append, List.nil_append, isWalk, Bool.and_eq_true] at h ⊢
    refine ⟨h.1, ?_⟩
    simp [isWalk]
  | y :: z :: p', x, q, h => by
    simp only [List.cons_append, isWalk, Bool.and_eq_true] at h ⊢
    exact ⟨h.1, isWalk_take_to (p := z :: p') h.2⟩

lemma isWalk_glue {g : WGraph} :
    ∀ {p : List Nat} {x : Nat} {q : List Nat},
      isWalk g (p ++ [x]) = true → isWalk g (x :: q) = true →
        isWalk g (p ++ (x :: q)) = true
  | [], _, _, _, h2 => h2
  | [y], x, q, h1, h2 => by
    simp only [List.cons_append, List.nil_append, isWalk, Bool.and_eq_true] at h1 ⊢
    exact ⟨h1.1, h2⟩
  | y :: z :: p', x, q, h1, h2 => by
    simp only [List.cons_append, isWalk, Bool.and_eq_true] at h1 ⊢
    exact ⟨h1.1, isWalk_glue (p := z :: p') h1.2 h2⟩

lemma exists_dup_decomp :
    ∀ {l : List Nat}, ¬ l.Nodup → ∃ a x b c, l = a ++ (x :: (b ++ (x :: c))) := by
  intro l
  induction l with
  | nil => intro h; exact absurd List.nodup_nil h
  | cons y rest ih =>
    intro h
    by_cases hy : y ∈ rest
    · rcases List.append_of_mem hy with ⟨s, t, rfl⟩
      exact ⟨[], y, s, t, rfl⟩
    · have hnr : ¬ rest.Nodup := fun hn => h (List.nodup_cons.mpr ⟨hy, hn⟩)
      rcases ih hnr with ⟨a, x, b, c, rfl⟩
      exact ⟨y :: a, x, b, c, rfl⟩

lemma head?_append_cons (a : List Nat) (x : Nat) (q : List Nat) :
    (a ++ (x :: q)).head? = some (a.headD x) := by
  cases a <;> simp

lemma isWalk_append_inv {g : WGraph} {x : Nat} :
    ∀ {ms : List Nat}, ms ≠ [] → isWalk g (ms ++ [x]) = true →
      isWalk g ms = true ∧ ∃ u, ms.getLast? = some u ∧ adjB g u x = true
  | [], h, _ => absurd rfl h
  | [y], _, hw => by
    have ha : adjB g y x = true := by simpa [isWalk] using hw
    exact ⟨rfl, y, rfl, ha⟩
  | y :: z :: ms', _, hw => by
    have hsplit : adjB g y z = true ∧ isWalk g ((z :: ms') ++ [x]) = true := by
      simpa [isWalk] using hw
    rcases @isWalk_append_inv g x (z :: ms') (by simp) hsplit.2 with ⟨hw', u, hl, ha⟩
    refine ⟨?_, u, ?_, ha⟩
    · show (adjB g y z && isWalk g (z :: ms')) = true
      rw [hsplit.1, hw']
      rfl
    · rw [List.getLast?_cons_cons]
      exact hl

lemma walk_canon_len {g : WGraph} {root : Nat} (hroot : inDeg g root = 0)
    (hdeg : ∀ v ∈ g.vertices, v ≠ root → inDeg g v = 1)
    (hedge : ∀ e ∈ g.edges, e.1 ∈ g.vertices ∧ e.2.1 ∈ g.vertices) :
    ∀ {ns : List Nat} {tip : Nat}, isWalk g ns = true → ns.head? = some root →
      ns.getLast? = some tip → pathToRootAux g root ns.length tip = some ns := by
  intro ns
  induction ns using List.reverseRecOn with
  | nil => intro tip hw _ _; simp [isWalk] at hw
  | append_singleton ms x ih =>
    intro tip hw hh hl
    rw [List.getLast?_concat] at hl
    have heq : x = tip := by injection hl
    rw [← heq]
    rcases ms with _ | ⟨m0, ms'⟩
    · have hh' : x = root := by simpa using hh
      simp [pathToRootAux, hh']
    · rcases isWalk_append_inv (by simp) hw with ⟨hwm, u, hlu, hadj⟩
      have hm0 : m0 = root := by simpa using hh
      have hxr : x ≠ root := by
        intro hx
        have hpos := inDeg_pos_of_adjB hadj
        rw [hx, hroot] at hpos
        omega
      rcases adjB_iff.mp hadj with ⟨e, he, h1, h2⟩
      have hxv : x ∈ g.vertices := h2 ▸ (hedge e he).2
      have hpar : parent g x = some u := parent_eq (hdeg x hxv hxr) he h1 h2
      have hih := ih hwm (by simp [hm0]) hlu
      have hlen : ((m0 :: ms' : List Nat) ++ [x]).length = (m0 :: ms').length + 1 := by
        simp
      rw [hlen]
      simp only [pathToRootAux, if_neg hxr, hpar]
      show (pathToRootAux g root (m0 :: ms').length u).map (fun ns => ns ++ [x]) =
        some ((m0 :: ms') ++ [x])
      rw [hih]
      rfl

lemma walk_eq_of_same_ends {g : WGraph} {root : Nat} (hroot : inDeg g root = 0)
    (hdeg : ∀ v ∈ g.vertices, v ≠ root → inDeg g v = 1)
    (hedge : ∀ e ∈ g.edges, e.1 ∈ g.vertices ∧ e.2.1 ∈ g.vertices)
    {ns ms : List Nat} {tip : Nat}
    (hwn : isWalk g ns = true) (hhn : ns.head? = some root) (hln : ns.getLast? = some tip)
    (hwm : isWalk g ms = true) (hhm : ms.head? = some root) (hlm : ms.getLast? = some tip) :
    ns = ms := by
  have h1 := walk_canon_len hroot hdeg hedge hwn hhn hln
  have h2 := walk_canon_len hroot hdeg hedge hwm hhm hlm
  have h1' := pathToRootAux_mono h1 (Nat.le_max_left ns.length ms.length)
  have h2' := pathToRootAux_mono h2 (Nat.le_max_right ns.length ms.length)
  exact Option.some.inj (h1'.symm.trans h2')

lemma walk_nodup {g : WGraph} {root : Nat} (hroot : inDeg g root = 0)
    (hdeg : ∀ v ∈ g.vertices, v ≠ root → inDeg g v = 1)
    (hedge : ∀ e ∈ g.edges, e.1 ∈ g.vertices ∧ e.2.1 ∈ g.vertices)
    {ns : List Nat} {tip : Nat}
    (hw : isWalk g ns = true) (hh : ns.head? = some root) (hl : ns.getLast? = some tip) :
    ns.Nodup := by
  by_contra hnd
  rcases exists_dup_decomp hnd with ⟨a, x, b, c, rfl⟩
  have hassoc : a ++ (x :: (b ++ (x :: c))) = (a ++ (x :: b)) ++ (x :: c) := by simp
  have hw2 : isWalk g (x :: c) = true := by
    apply isWalk_drop_to (p := a ++ (x :: b))
    rw [← hassoc]
    exact hw
  have hw1 : isWalk g (a ++ [x]) = true := isWalk_take_to hw
  have hwcut : isWalk g (a ++ (x :: c)) = true := isWalk_glue hw1 hw2
  have hhcut : (a ++ (x :: c)).head? = some root := by
    rw [head?_append_cons] at hh ⊢
    exact hh
  have hlcut : (a ++ (x :: c)).getLast? = some tip := by
    rw [hassoc] at hl
    rw [List.getLast?_append_of_ne_nil _ (by simp : (x :: c : List Nat) ≠ [])] at hl
    rw [List.getLast?_append_of_ne_nil _ (by simp : (x :: c : List Nat) ≠ [])]
    exact hl
  have hsame := walk_eq_of_same_ends hroot hdeg hedge hw hh hl hwcut hhcut hlcut
  have hlen := congrArg List.length hsame
  simp only [List.length_append, List.length_cons] at hlen
  omega

lemma reachable_pathToRoot {g : WGraph} {root : Nat} (hv : validRootedTree g root) :
    ∀ v ∈ g.vertices, ∃ ns, pathToRootAux g root g.vertices.length v = some ns := by
  obtain ⟨hrv, hnd, hroot, hdeg, hedge, _hw, hconn⟩ := hv
  intro v hvm
  rcases hconn v hvm with ⟨ns, hw, hh, hl⟩
  have hcanon := walk_canon_len hroot hdeg hedge hw hh hl
  have hnodup := walk_nodup hroot hdeg hedge hw hh hl
  have hsub : ns ⊆ g.vertices := fun x hx =>
    walk_mem_vertices hedge hw hh hrv x hx
  have hle : ns.length ≤ g.vertices.length := (hnodup.subperm hsub).length_le
  exact ⟨ns, pathToRootAux_mono hcanon hle⟩

lemma getShortestPath_spec {g : WGraph} {root : Nat} (hv : validRootedTree g root) :
    ∀ v ∈ g.vertices, ∃ ns, getShortestPath g root v = some (ns, walkWeight g ns) ∧
      isWalk g ns = true ∧ ns.head? = some root ∧ ns.getLast? = some v := by
  intro v hvm
  rcases reachable_pathToRoot hv v hvm with ⟨ns, hns⟩
  rcases pathToRootAux_spec hns with ⟨hw, hh, hl⟩
  refine ⟨ns, ?_, hw, hh, hl⟩
  unfold getShortestPath
  rw [hns]
  rfl

end GraphAnalysis

namespace GraphAnalysis

lemma mem_walksUpTo {g : WGraph} :
    ∀ {fuel u t : Nat} {ms : List Nat}, ms ∈ walksUpTo g fuel u t →
      isWalk g ms = true ∧ ms.head? = some u ∧ ms.getLast? = some t := by
  intro fuel
  induction fuel with
  | zero =>
    intro u t ms h
    by_cases hut : u = t
    · subst hut
      simp only [walksUpTo, beq_self_eq_true, if_true, List.mem_singleton] at h
      subst h
      exact ⟨rfl, rfl, by simp⟩
    · simp [walksUpTo, hut] at h
  | succ fuel ih =>
    intro u t ms h
    simp only [walksUpTo, List.mem_append] at h
    rcases h with h | h
    · by_cases hut : u = t
      · subst hut
        simp only [beq_self_eq_true, if_true, List.mem_singleton] at h
        subst h
        exact ⟨rfl, rfl, by simp⟩
      · simp [hut] at h
    · rw [List.mem_flatMap] at h
      rcases h with ⟨e, he, h⟩
      rw [List.mem_filter] at he
      rw [List.mem_map] at h
      rcases h with ⟨ns, hns, rfl⟩
      rcases ih hns with ⟨hw, hh, hl⟩
      have hadj : adjB g u e.2.1 = true :=
        adjB_iff.mpr ⟨e, he.1, by simpa using he.2, rfl⟩
      rcases ns with _ | ⟨n0, ns'⟩
      · exact absurd hh (by simp)
      · have hn0 : n0 = e.2.1 := by simpa using hh
        subst hn0
        refine ⟨?_, rfl, ?_⟩
        · show (adjB g u e.2.1 && isWalk g (e.2.1 :: ns')) = true
          rw [hadj, hw]
          rfl
        · rw [List.getLast?_cons_cons]
          exact hl

lemma walksUpTo_complete {g : WGraph} :
    ∀ {ms : List Nat} {fuel u t : Nat}, isWalk g ms = true → ms.head? = some u →
      ms.getLast? = some t → ms.length ≤ fuel + 1 → ms ∈ walksUpTo g fuel u t
  | [], fuel, u, t, hw, _, _, _ => by simp [isWalk] at hw
  | [y], fuel, u, t, _, hh, hl, _ => by
    have hy : y = u := by simpa using hh
    subst hy
    have hyt : y = t := by simpa using hl
    subst hyt
    rcases fuel with _ | f <;> simp [walksUpTo]
  | y :: z :: rest, fuel, u, t, hw, hh, hl, hlen => by
    have hy : y = u := by simpa using hh
    subst hy
    rcases fuel with _ | f
    · simp only [List.length_cons] at hlen
      omega
    · simp only [isWalk, Bool.and_eq_true] at hw
      rw [List.getLast?_cons_cons] at hl
      have hzrest : (z :: rest) ∈ walksUpTo g f z t := by
        apply walksUpTo_complete hw.2 rfl hl
        simp only [List.length_cons] at hlen ⊢
        omega
      rcases adjB_iff.mp hw.1 with ⟨e, he, h1, h2⟩
      simp only [walksUpTo, List.mem_append]
      right
      rw [List.mem_flatMap]
      refine ⟨e, ?_, ?_⟩
      · rw [List.mem_filter]
        exact ⟨he, by simpa using h1⟩
      · rw [List.mem_map]
        refine ⟨z :: rest, ?_, rfl⟩
        rw [h2]
        exact hzrest

lemma minWeightWalk_const {g : WGraph} {ns : List Nat} :
    ∀ {l : List (List Nat)}, l ≠ [] → (∀ ms ∈ l, ms = ns) →
      minWeightWalk g l = some (ns, walkWeight g ns)
  | [], h, _ => absurd rfl h
  | ms :: rest, _, hall => by
    have hms : ms = ns := hall ms (List.mem_cons_self _ _)
    rcases rest with _ | ⟨r0, rest'⟩
    · simp [minWeightWalk, hms]
    · have hmin := @minWeightWalk_const g ns (r0 :: rest') (by simp)
        (fun m hm => hall m (List.mem_cons_of_mem _ hm))
      subst hms
      show (match minWeightWalk g (r0 :: rest') with
        | none => some (ms, walkWeight g ms)
        | some (ns, w) =>
          if walkWeight g ms ≤ w then some (ms, walkWeight g ms) else some (ns, w)) =
        some (ms, walkWeight g ms)
      rw [hmin]
      simp

lemma dijkstraGetPath_eq {g : WGraph} {root : Nat} (hv : validRootedTree g root) :
    ∀ tip ∈ g.vertices, dijkstraGetPath g root tip = getShortestPath g root tip := by
  intro tip htip
  rcases reachable_pathToRoot hv tip htip with ⟨ns, hns⟩
  obtain ⟨hrv, hnd, hroot, hdeg, hedge, hwnn, hconn⟩ := hv
  rcases pathToRootAux_spec hns with ⟨hw, hh, hl⟩
  have hlen : ns.length ≤ g.vertices.length := pathToRootAux_length_le hns
  have hmemw : ns ∈ walksUpTo g g.vertices.length root tip :=
    walksUpTo_complete hw hh hl (by omega)
  have hne : walksUpTo g g.vertices.length root tip ≠ [] := by
    intro hnil
    rw [hnil] at hmemw
    simp at hmemw
  have hall : ∀ ms ∈ walksUpTo g g.vertices.length root tip, ms = ns := by
    intro ms hms
    rcases mem_walksUpTo hms with ⟨hwm, hhm, hlm⟩
    exact walk_eq_of_same_ends hroot hdeg hedge hwm hhm hlm hw hh hl
  unfold dijkstraGetPath getShortestPath
  rw [hns, minWeightWalk_const hne hall]
  rfl

end GraphAnalysis

namespace GraphAnalysis

lemma graph_diameter_loop_eq_fold (g : WGraph) (root : Nat) :
    ∀ (tips : List Nat) (m : ℚ) (b : Option (List Nat × ℚ)),
      graph_diameter_loop g root tips m b = diameterFold (getShortestPath g root) tips m b
  | [], _, _ => rfl
  | tip :: rest, m, b => by
    simp only [graph_diameter_loop, diameterFold]
    cases hq : getShortestPath g root tip with
    | none => simp [hq]
    | some q =>
      simp only [hq]
      by_cases hlt : m < q.2
      · simp only [if_pos hlt]
        exact graph_diameter_loop_eq_fold g root rest q.2 (some q)
      · simp only [if_neg hlt]
        exact graph_diameter_loop_eq_fold g root rest m b

lemma graph_diameter_dsp_loop_eq_fold (g : WGraph) (root : Nat) :
    ∀ (tips : List Nat) (m : ℚ) (b : Option (List Nat × ℚ)),
      graph_diameter_dsp_loop g root tips m b = diameterFold (dijkstraGetPath g root) tips m b
  | [], _, _ => rfl
  | tip :: rest, m, b => by
    simp only [graph_diameter_dsp_loop, diameterFold]
    cases hq : dijkstraGetPath g root tip with
    | none => simp [hq]
    | some q =>
      simp only [hq]
      by_cases hlt : m < q.2
      · simp only [if_pos hlt]
        exact graph_diameter_dsp_loop_eq_fold g root rest q.2 (some q)
      · simp only [if_neg hlt]
        exact graph_diameter_dsp_loop_eq_fold g root rest m b

lemma diameterFold_ne_invalid (sp : Nat → Option (List Nat × ℚ)) :
    ∀ (tips : List Nat) (m : ℚ) (b : Option (List Nat × ℚ)),
      diameterFold sp tips m b ≠ .error .invalidGraphError
  | [], m, b => by simp [diameterFold]
  | tip :: rest, m, b => by
    simp only [diameterFold]
    cases hq : sp tip with
    | none => simp
    | some q =>
      by_cases hlt : m < q.2
      · simp only [if_pos hlt]
        exact diameterFold_ne_invalid sp rest q.2 (some q)
      · simp only [if_neg hlt]
        exact diameterFold_ne_invalid sp rest m b

lemma diameterFold_ok (sp : Nat → Option (List Nat × ℚ)) :
    ∀ (tips : List Nat) (m : ℚ) (b : Option (List Nat × ℚ)),
      (∀ t ∈ tips, (sp t).isSome) → ∃ r, diameterFold sp tips m b = .ok r
  | [], m, b, _ => ⟨(m, b), rfl⟩
  | tip :: rest, m, b, h => by
    have htip := h tip (List.mem_cons_self _ _)
    cases hq : sp tip with
    | none => rw [hq] at htip; simp at htip
    | some q =>
      simp only [diameterFold, hq]
      by_cases hlt : m < q.2
      · simp only [if_pos hlt]
        exact diameterFold_ok sp rest q.2 (some q) (fun t ht => h t (List.mem_cons_of_mem _ ht))
      · simp only [if_neg hlt]
        exact diameterFold_ok sp rest m b (fun t ht => h t (List.mem_cons_of_mem _ ht))

lemma diameterFold_no_improve (sp : Nat → Option (List Nat × ℚ)) :
    ∀ (tips : List Nat) (m : ℚ) (b : Option (List Nat × ℚ)),
      (∀ t ∈ tips, ∃ q, sp t = some q ∧ q.2 ≤ m) →
      diameterFold sp tips m b = .ok (m, b)
  | [], _, _, _ => rfl
  | tip :: rest, m, b, h => by
    rcases h tip (List.mem_cons_self _ _) with ⟨q, hq, hle⟩
    simp only [diameterFold, hq]
    rw [if_neg (not_lt.mpr hle)]
    exact diameterFold_no_improve sp rest m b (fun t ht => h t (List.mem_cons_of_mem _ ht))

lemma diameterFold_first_max (sp : Nat → Option (List Nat × ℚ)) {L : ℚ}
    {t0 : Nat} {q0 : List Nat × ℚ} (hq0 : sp t0 = some q0) (hL : q0.2 = L)
    {post : List Nat} (hpost : ∀ t ∈ post, ∃ q, sp t = some q ∧ q.2 ≤ L) :
    ∀ (pre : List Nat) (m : ℚ) (b : Option (List Nat × ℚ)),
      (∀ t ∈ pre, ∃ q, sp t = some q ∧ q.2 < L) → m < L →
      diameterFold sp (pre ++ (t0 :: post)) m b = .ok (L, some q0)
  | [], m, b, _, hm => by
    simp only [List.nil_append, diameterFold, hq0]
    rw [if_pos (show m < q0.2 by rw [hL]; exact hm)]
    rw [hL]
    apply diameterFold_no_improve sp post L (some q0)
    intro t ht
    rcases hpost t ht with ⟨q, hq, hle⟩
    exact ⟨q, hq, hle⟩
  | p :: pre', m, b, hpre, hm => by
    rcases hpre p (List.mem_cons_self _ _) with ⟨q, hq, hlt⟩
    simp only [List.cons_append, diameterFold, hq]
    by_cases hmq : m < q.2
    · rw [if_pos hmq]
      exact diameterFold_first_max sp hq0 hL hpost pre' q.2 (some q)
        (fun t ht => hpre t (List.mem_cons_of_mem _ ht)) hlt
    · rw [if_neg hmq]
      exact diameterFold_first_max sp hq0 hL hpost pre' m b
        (fun t ht => hpre t (List.mem_cons_of_mem _ ht)) hm

lemma diameterFold_congr {sp1 sp2 : Nat → Option (List Nat × ℚ)} :
    ∀ (tips : List Nat) (m : ℚ) (b : Option (List Nat × ℚ)),
      (∀ t ∈ tips, sp1 t = sp2 t) →
      diameterFold sp1 tips m b = diameterFold sp2 tips m b
  | [], _, _, _ => rfl
  | tip :: rest, m, b, h => by
    have ht := h tip (List.mem_cons_self _ _)
    simp only [diameterFold, ht]
    cases hq : sp2 tip with
    | none => rfl
    | some q =>
      simp only [hq]
      by_cases hlt : m < q.2
      · rw [if_pos hlt, if_pos hlt]
        exact diameterFold_congr rest q.2 (some q) (fun t htm => h t (List.mem_cons_of_mem _ htm))
      · rw [if_neg hlt, if_neg hlt]
        exact diameterFold_congr rest m b (fun t htm => h t (List.mem_cons_of_mem _ htm))

lemma graph_diameter_loopST_spec (root : Nat) :
    ∀ (g : WGraph) (tips : List Nat) (m : ℚ) (b : Option (List Nat × ℚ)),
      graph_diameter_loopST root g tips m b = (graph_diameter_loop g root tips m b, g)
  | _, [], _, _ => rfl
  | g, tip :: rest, m, b => by
    simp only [graph_diameter_loopST, graph_diameter_loop, getShortestPathST]
    cases hq : getShortestPath g root tip with
    | none => simp [hq]
    | some q =>
      simp only [hq]
      by_cases hlt : m < q.2
      · simp only [if_pos hlt]
        exact graph_diameter_loopST_spec root g rest q.2 (some q)
      · simp only [if_neg hlt]
        exact graph_diameter_loopST_spec root g rest m b

lemma edgeWeight_nonneg {g : WGraph} (h : ∀ e ∈ g.edges, 0 ≤ e.2.2) (u v : Nat) :
    0 ≤ edgeWeight g u v := by
  unfold edgeWeight
  rcases hf : g.edges.filter (fun e => e.1 == u && e.2.1 == v) with _ | ⟨e, rest⟩
  · rw [hf]
  · rw [hf]
    have hmem : e ∈ g.edges.filter (fun e => e.1 == u && e.2.1 == v) := by
      rw [hf]
      exact List.mem_cons_self _ _
    exact h e (List.mem_filter.mp hmem).1

lemma walkWeight_nonneg {g : WGraph} (h : ∀ e ∈ g.edges, 0 ≤ e.2.2) :
    ∀ ns : List Nat, 0 ≤ walkWeight g ns
  | [] => le_refl 0
  | [_] => le_refl 0
  | u :: v :: rest => by
    show 0 ≤ edgeWeight g u v + walkWeight g (v :: rest)
    have h1 := edgeWeight_nonneg h u v
    have h2 := walkWeight_nonneg h (v :: rest)
    linarith

lemma exists_first_max (f : Nat → ℚ) :
    ∀ {l : List Nat}, l ≠ [] →
      ∃ pre x post, l = pre ++ (x :: post) ∧ (∀ t ∈ pre, f t < f x) ∧
        (∀ t ∈ post, f t ≤ f x)
  | [], h => absurd rfl h
  | [y], _ => ⟨[], y, [], rfl, by simp, by simp⟩
  | y :: z :: rest, _ => by
    rcases exists_first_max f (l := z :: rest) (by simp) with ⟨pre, x, post, heq, hpre, hpost⟩
    by_cases hyx : f x ≤ f y
    · refine ⟨[], y, z :: rest, rfl, by simp, ?_⟩
      intro t ht
      rw [heq] at ht
      rcases List.mem_append.mp ht with h1 | h2
      · exact le_of_lt (lt_of_lt_of_le (hpre t h1) hyx)
      · rcases List.mem_cons.mp h2 with rfl | h3
        · exact hyx
        · exact le_trans (hpost t h3) hyx
    · refine ⟨y :: pre, x, post, by rw [List.cons_append, ← heq], ?_, hpost⟩
      intro t ht
      rcases List.mem_cons.mp ht with rfl | h2
      · exact not_le.mp hyx
      · exact hpre t h2

end GraphAnalysis

namespace GraphAnalysis

/-- The spec's example tree: root 1 with two leaf children, at distances 3
(node 2) and 5 (node 3). -/
def exampleTree35 : WGraph := ⟨[1, 2, 3], [(1, 2, 3), (1, 3, 5)]⟩

/-- A graph violating the rooted-tree invariant: nodes 1 and 2 both have
in-degree 0, and node 3 has in-degree 2. -/
def twoRootsGraph : WGraph := ⟨[1, 2, 3], [(1, 3, 2), (2, 3, 1)]⟩

/-- The single-node graph consisting only of a root. -/
def singleNodeGraph (root : Nat) : WGraph := ⟨[root], []⟩

/-- A two-node tree whose only edge has weight 0. -/
def zeroWeightTree : WGraph := ⟨[1, 2], [(1, 2, 0)]⟩

/-- A tie tree: two tips, both at distance 5 from the root. -/
def tieTree : WGraph := ⟨[1, 2, 3], [(1, 2, 5), (1, 3, 5)]⟩

/-- A zero-weight tie tree: two tips, both at distance 0 from the root. -/
def zeroTieTree : WGraph := ⟨[1, 2, 3], [(1, 2, 0), (1, 3, 0)]⟩

/-- A two-node tree with edge weight 1. -/
def twoNodeTree : WGraph := ⟨[1, 2], [(1, 2, 1)]⟩

lemma exampleTree35_valid : validRootedTree exampleTree35 1 := by
  refine ⟨by decide, by decide, by decide, by decide, by decide, by decide, ?_⟩
  intro v hv
  have h : v = 1 ∨ v = 2 ∨ v = 3 := by simpa [exampleTree35] using hv
  rcases h with rfl | rfl | rfl
  · exact ⟨[1], by decide, rfl, rfl⟩
  · exact ⟨[1, 2], by decide, rfl, rfl⟩
  · exact ⟨[1, 3], by decide, rfl, rfl⟩

lemma twoNodeTree_valid : validRootedTree twoNodeTree 1 := by
  refine ⟨by decide, by decide, by decide, by decide, by decide, by decide, ?_⟩
  intro v hv
  have h : v = 1 ∨ v = 2 := by simpa [twoNodeTree] using hv
  rcases h with rfl | rfl
  · exact ⟨[1], by decide, rfl, rfl⟩
  · exact ⟨[1, 2], by decide, rfl, rfl⟩

lemma zeroWeightTree_valid : validRootedTree zeroWeightTree 1 := by
  refine ⟨by decide, by decide, by decide, by decide, by decide, by decide, ?_⟩
  intro v hv
  have h : v = 1 ∨ v = 2 := by simpa [zeroWeightTree] using hv
  rcases h with rfl | rfl
  · exact ⟨[1], by decide, rfl, rfl⟩
  · exact ⟨[1, 2], by decide, rfl, rfl⟩

lemma tieTree_valid : validRootedTree tieTree 1 := by
  refine ⟨by decide, by decide, by decide, by decide, by decide, by decide, ?_⟩
  intro v hv
  have h : v = 1 ∨ v = 2 ∨ v = 3 := by simpa [tieTree] using hv
  rcases h with rfl | rfl | rfl
  · exact ⟨[1], by decide, rfl, rfl⟩
  · exact ⟨[1, 2], by decide, rfl, rfl⟩
  · exact ⟨[1, 3], by decide, rfl, rfl⟩

lemma zeroTieTree_valid : validRootedTree zeroTieTree 1 := by
  refine ⟨by decide, by decide, by decide, by decide, by decide, by decide, ?_⟩
  intro v hv
  have h : v = 1 ∨ v = 2 ∨ v = 3 := by simpa [zeroTieTree] using hv
  rcases h with rfl | rfl | rfl
  · exact ⟨[1], by decide, rfl, rfl⟩
  · exact ⟨[1, 2], by decide, rfl, rfl⟩
  · exact ⟨[1, 3], by decide, rfl, rfl⟩

end GraphAnalysis

namespace GraphAnalysis

lemma diameterFold_cases (sp : Nat → Option (List Nat × ℚ)) :
    ∀ (tips : List Nat) (m : ℚ) (b : Option (List Nat × ℚ)),
      (∃ r, diameterFold sp tips m b = .ok r) ∨
        diameterFold sp tips m b = .error .attributeError
  | [], m, b => .inl ⟨(m, b), rfl⟩
  | tip :: rest, m, b => by
    simp only [diameterFold]
    cases hq : sp tip with
    | none => exact .inr rfl
    | some q =>
      by_cases hlt : m < q.2
      · simp only [if_pos hlt]
        exact diameterFold_cases sp rest q.2 (some q)
      · simp only [if_neg hlt]
        exact diameterFold_cases sp rest m b

/-- C1, counterexample: `twoRootsGraph` has two in-degree-0 nodes (its root
enumeration is `[1, 2]`), yet `graph_diameter`, called as the script calls
it (with a designated root and the out-degree-0 tips), does not fail: it
returns the result `(2, path 1→3)` computed from the node supplied as root,
which is not an error of any kind. -/
theorem C1_counterexample :
    rootsOf twoRootsGraph = [1, 2] ∧
    graph_diameter twoRootsGraph 1 (tipsOf twoRootsGraph) =
      Except.ok ((2 : ℚ), some ([1, 3], (2 : ℚ))) ∧
    (∀ err : PyError, Except.ok ((2 : ℚ), some ([1, 3], (2 : ℚ))) ≠
      (Except.error err : Except PyError (ℚ × Option (List Nat × ℚ)))) := by
  refine ⟨rfl, ?_, ?_⟩
  · norm_num [graph_diameter, graph_diameter_loop, getShortestPath, pathToRootAux,
      parent, walkWeight, edgeWeight, tipsOf, outDeg, twoRootsGraph]
  · intro err h
    cases h

/-- C1 (amended): `graph_diameter` performs no validation of the
rooted-tree invariant and never raises `InvalidGraphError` on any input:
every call either returns a result (computed from whatever node the caller
passed as root) or raises Python's `AttributeError` from calling
`.getLength()` on a null shortest path. -/
theorem C1_no_invalidGraphError (g : WGraph) (root : Nat) (tips : List Nat) :
    (∃ r, graph_diameter g root tips = Except.ok r) ∨
      graph_diameter g root tips = Except.error PyError.attributeError := by
  unfold graph_diameter
  rw [graph_diameter_loop_eq_fold]
  exact diameterFold_cases _ _ _ _

/-- C2, counterexample: on the single-node graph consisting only of root 1
the tip enumeration is `[1]` (the root has out-degree 0) and
`graph_diameter` returns `(0, None)` — and it also returns `(0, None)` when
handed an empty tip list — never the claimed single-node path `[root]`. -/
theorem C2_counterexample :
    tipsOf (singleNodeGraph 1) = [1] ∧
    graph_diameter (singleNodeGraph 1) 1 (tipsOf (singleNodeGraph 1)) =
      Except.ok ((0 : ℚ), (none : Option (List Nat × ℚ))) ∧
    graph_diameter (singleNodeGraph 1) 1 [] =
      Except.ok ((0 : ℚ), (none : Option (List Nat × ℚ))) ∧
    (none : Option (List Nat × ℚ)) ≠ some ([1], (0 : ℚ)) := by
  refine ⟨rfl, ?_, rfl, by simp⟩
  norm_num [graph_diameter, graph_diameter_loop, getShortestPath, pathToRootAux,
    parent, walkWeight, edgeWeight, tipsOf, outDeg, singleNodeGraph]

/-- C2 (amended): for a rooted tree with no tips to iterate over — in
particular the single-node graph consisting only of the root, whose tip
enumeration contains only the root itself — `graph_diameter` returns
length 0 together with a null (`None`) path, not a single-node path. -/
theorem C2_no_tips_returns_none_path (g : WGraph) (root : Nat) :
    graph_diameter g root [] = Except.ok ((0 : ℚ), (none : Option (List Nat × ℚ))) ∧
    graph_diameter (singleNodeGraph root) root (tipsOf (singleNodeGraph root)) =
      Except.ok ((0 : ℚ), (none : Option (List Nat × ℚ))) := by
  constructor
  · rfl
  · have h1 : tipsOf (singleNodeGraph root) = [root] := rfl
    have h2 : getShortestPath (singleNodeGraph root) root root = some ([root], 0) := by
      unfold getShortestPath singleNodeGraph pathToRootAux
      simp [walkWeight]
    rw [h1]
    unfold graph_diameter
    simp [graph_diameter_loop, h2]

/-- C6: the computation is deterministic — two calls of `graph_diameter`
on the same unmodified graph, with the same root and the same tip
enumeration, return identical results (both the length and the path). -/
theorem C6_deterministic (g₁ g₂ : WGraph) (root₁ root₂ : Nat) (tips₁ tips₂ : List Nat)
    (hg : g₁ = g₂) (hr : root₁ = root₂) (ht : tips₁ = tips₂) :
    graph_diameter g₁ root₁ tips₁ = graph_diameter g₂ root₂ tips₂ := by
  rw [hg, hr, ht]

/-- Witness for C6 at the spec's example tree. -/
theorem C6_witness :
    graph_diameter exampleTree35 1 [2, 3] = graph_diameter exampleTree35 1 [2, 3] :=
  C6_deterministic exampleTree35 exampleTree35 1 1 [2, 3] [2, 3] rfl rfl rfl

/-- C7: `graph_diameter` is read-only over the graph: in the
state-threading form, where the graph object is passed through every
operation of the loop, the graph coming out of the call is the graph that
went in, and the computed result is that of `graph_diameter`. -/
theorem C7_read_only (g : WGraph) (root : Nat) (tips : List Nat) :
    (graph_diameterST g root tips).2 = g ∧
    (graph_diameterST g root tips).1 = graph_diameter g root tips := by
  unfold graph_diameterST graph_diameter
  rw [graph_diameter_loopST_spec]
  exact ⟨rfl, rfl⟩

end GraphAnalysis

namespace GraphAnalysis

/-- C3: on every valid rooted tree (with the test-suite bounds: 2–1000
nodes, edge weights in [0.1, 100]) the tree-native `graph_diameter` and the
per-tip Dijkstra `graph_diameter_dsp` return the same diameter length,
within the floating-point tolerance 1e-9 (here: exactly, so in particular
within the tolerance). -/
theorem C3_tree_and_dijkstra_agree (g : WGraph) (root : Nat)
    (hv : validRootedTree g root)
    (hn : 2 ≤ g.vertices.length) (hn' : g.vertices.length ≤ 1000)
    (hw : ∀ e ∈ g.edges, (1 : ℚ) / 10 ≤ e.2.2 ∧ e.2.2 ≤ 100) :
    ∃ l₁ p₁ l₂ p₂,
      graph_diameter g root (tipsOf g) = Except.ok (l₁, p₁) ∧
      graph_diameter_dsp g root (tipsOf g) = Except.ok (l₂, p₂) ∧
      |l₁ - l₂| ≤ 1 / 1000000000 := by
  have htips : ∀ t ∈ tipsOf g, t ∈ g.vertices := fun t ht => (List.mem_filter.mp ht).1
  have hsome : ∀ t ∈ tipsOf g, (getShortestPath g root t).isSome := by
    intro t ht
    rcases getShortestPath_spec hv t (htips t ht) with ⟨ns, hns, _⟩
    rw [hns]
    rfl
  rcases diameterFold_ok (getShortestPath g root) (tipsOf g) 0 none hsome with ⟨⟨l, p⟩, hfold⟩
  have heq : graph_diameter_dsp g root (tipsOf g) = graph_diameter g root (tipsOf g) := by
    unfold graph_diameter graph_diameter_dsp
    rw [graph_diameter_loop_eq_fold, graph_diameter_dsp_loop_eq_fold]
    exact diameterFold_congr _ _ _ (fun t ht => dijkstraGetPath_eq hv t (htips t ht))
  refine ⟨l, p, l, p, ?_, ?_, ?_⟩
  · unfold graph_diameter
    rw [graph_diameter_loop_eq_fold]
    exact hfold
  · rw [heq]
    unfold graph_diameter
    rw [graph_diameter_loop_eq_fold]
    exact hfold
  · rw [sub_self, abs_zero]
    norm_num

/-- Witness for C3 at the two-node tree with edge weight 1. -/
theorem C3_witness :
    ∃ l₁ p₁ l₂ p₂,
      graph_diameter twoNodeTree 1 (tipsOf twoNodeTree) = Except.ok (l₁, p₁) ∧
      graph_diameter_dsp twoNodeTree 1 (tipsOf twoNodeTree) = Except.ok (l₂, p₂) ∧
      |l₁ - l₂| ≤ 1 / 1000000000 :=
  C3_tree_and_dijkstra_agree twoNodeTree 1 twoNodeTree_valid (by decide) (by decide)
    (by norm_num [twoNodeTree])

/-- C8: on every finite valid rooted tree `graph_diameter` terminates with
a result — given any tip list drawn from the vertices it returns `.ok`,
raising neither `InvalidGraphError` nor any other error. -/
theorem C8_terminates_ok (g : WGraph) (root : Nat) (hv : validRootedTree g root)
    (tips : List Nat) (htips : ∀ t ∈ tips, t ∈ g.vertices) :
    ∃ r, graph_diameter g root tips = Except.ok r := by
  have hsome : ∀ t ∈ tips, (getShortestPath g root t).isSome := by
    intro t ht
    rcases getShortestPath_spec hv t (htips t ht) with ⟨ns, hns, _⟩
    rw [hns]
    rfl
  unfold graph_diameter
  rw [graph_diameter_loop_eq_fold]
  exact diameterFold_ok _ _ _ _ hsome

/-- Witness for C8 at the spec's example tree with its tip enumeration. -/
theorem C8_witness : ∃ r, graph_diameter exampleTree35 1 (tipsOf exampleTree35) = Except.ok r :=
  C8_terminates_ok exampleTree35 1 exampleTree35_valid (tipsOf exampleTree35) (by decide)

/-- C10: whenever the tips are non-empty but no root-to-tip path has
length strictly greater than 0 (for either oracle), both `graph_diameter`
and `graph_diameter_dsp` return length 0 paired with a null (`None`) path,
because the best path starts as `None` and is replaced only on strict
improvement over the running maximum, which starts at 0. -/
theorem C10_zero_length_null_path (g : WGraph) (root : Nat) (tips : List Nat)
    (hne : tips ≠ [])
    (h1 : ∀ t ∈ tips, ∃ q, getShortestPath g root t = some q ∧ q.2 ≤ 0)
    (h2 : ∀ t ∈ tips, ∃ q, dijkstraGetPath g root t = some q ∧ q.2 ≤ 0) :
    graph_diameter g root tips = Except.ok ((0 : ℚ), (none : Option (List Nat × ℚ))) ∧
    graph_diameter_dsp g root tips = Except.ok ((0 : ℚ), (none : Option (List Nat × ℚ))) := by
  constructor
  · unfold graph_diameter
    rw [graph_diameter_loop_eq_fold]
    exact diameterFold_no_improve _ _ _ _ h1
  · unfold graph_diameter_dsp
    rw [graph_diameter_dsp_loop_eq_fold]
    exact diameterFold_no_improve _ _ _ _ h2

/-- Witness for C10 at the zero-weight two-node tree. -/
theorem C10_witness :
    graph_diameter zeroWeightTree 1 [2] = Except.ok ((0 : ℚ), (none : Option (List Nat × ℚ))) ∧
    graph_diameter_dsp zeroWeightTree 1 [2] =
      Except.ok ((0 : ℚ), (none : Option (List Nat × ℚ))) :=
  C10_zero_length_null_path zeroWeightTree 1 [2] (by simp)
    (by
      intro t ht
      have h : t = 2 := by simpa using ht
      subst h
      refine ⟨([1, 2], 0), ?_, le_refl 0⟩
      norm_num [getShortestPath, pathToRootAux, parent, walkWeight, edgeWeight, zeroWeightTree])
    (by
      intro t ht
      have h : t = 2 := by simpa using ht
      subst h
      refine ⟨([1, 2], 0), ?_, le_refl 0⟩
      norm_num [dijkstraGetPath, minWeightWalk, walksUpTo, walkWeight, edgeWeight,
        zeroWeightTree])

end GraphAnalysis

namespace GraphAnalysis

lemma rootDist_spec {g : WGraph} {root : Nat} (hv : validRootedTree g root)
    {t : Nat} (ht : t ∈ g.vertices) :
    ∃ ns, getShortestPath g root t = some (ns, rootDist g root t) ∧
      isWalk g ns = true ∧ ns.head? = some root ∧ ns.getLast? = some t := by
  rcases getShortestPath_spec hv t ht with ⟨ns, hns, hw, hh, hl⟩
  have hr : rootDist g root t = walkWeight g ns := by
    unfold rootDist
    rw [hns]
    rfl
  rw [hr]
  exact ⟨ns, hns, hw, hh, hl⟩

lemma rootDist_nonneg {g : WGraph} {root : Nat} (hv : validRootedTree g root)
    {t : Nat} (ht : t ∈ g.vertices) : 0 ≤ rootDist g root t := by
  rcases getShortestPath_spec hv t ht with ⟨ns, hns, _⟩
  have hr : rootDist g root t = walkWeight g ns := by
    unfold rootDist
    rw [hns]
    rfl
  rw [hr]
  exact walkWeight_nonneg hv.2.2.2.2.2.1 ns

/-- C4, counterexample: `zeroWeightTree` is a valid rooted tree with one
tip (node 2) at distance 0 from the root, yet `graph_diameter` returns the
null path `None`, not the ordered node sequence `[1, 2]` from the root to
the selected tip that the claim requires. -/
theorem C4_counterexample :
    validRootedTree zeroWeightTree 1 ∧ tipsOf zeroWeightTree = [2] ∧
    graph_diameter zeroWeightTree 1 (tipsOf zeroWeightTree) =
      Except.ok ((0 : ℚ), (none : Option (List Nat × ℚ))) ∧
    (none : Option (List Nat × ℚ)) ≠ some ([1, 2], (0 : ℚ)) := by
  refine ⟨zeroWeightTree_valid, rfl, ?_, by simp⟩
  norm_num [graph_diameter, graph_diameter_loop, getShortestPath, pathToRootAux, parent,
    walkWeight, edgeWeight, tipsOf, outDeg, zeroWeightTree]

/-- C4 (amended): on every valid rooted tree with at least one tip,
`graph_diameter` returns as length the maximum over all tips of the
root-to-tip path length; when that maximum is strictly positive the path is
the ordered node sequence from the root to a tip attaining it (inclusive),
and when the maximum is 0 the returned path is `None`. -/
theorem C4_max_length_and_path (g : WGraph) (root : Nat)
    (hv : validRootedTree g root) (hne : tipsOf g ≠ []) :
    ∃ l p, graph_diameter g root (tipsOf g) = Except.ok (l, p) ∧
      (∃ t ∈ tipsOf g, rootDist g root t = l) ∧
      (∀ t ∈ tipsOf g, rootDist g root t ≤ l) ∧
      (0 < l → ∃ t ∈ tipsOf g, ∃ ns, getShortestPath g root t = some (ns, l) ∧
        p = some (ns, l) ∧ ns.head? = some root ∧ ns.getLast? = some t) ∧
      (l = 0 → p = none) := by
  have htips : ∀ t ∈ tipsOf g, t ∈ g.vertices := fun t ht => (List.mem_filter.mp ht).1
  rcases exists_first_max (rootDist g root) hne with ⟨pre, x, post, heq, hpre, hpost⟩
  have hxmem : x ∈ tipsOf g := by
    rw [heq]
    exact List.mem_append.mpr (.inr (List.mem_cons_self _ _))
  have hall : ∀ t ∈ tipsOf g, rootDist g root t ≤ rootDist g root x := by
    intro t ht
    rw [heq] at ht
    rcases List.mem_append.mp ht with h1 | h2
    · exact le_of_lt (hpre t h1)
    · rcases List.mem_cons.mp h2 with rfl | h3
      · exact le_refl _
      · exact hpost t h3
  by_cases hL : 0 < rootDist g root x
  · rcases rootDist_spec hv (htips x hxmem) with ⟨ns, hns, _hwns, hhns, hlns⟩
    have hmain : graph_diameter g root (tipsOf g) =
        Except.ok (rootDist g root x, some (ns, rootDist g root x)) := by
      unfold graph_diameter
      rw [graph_diameter_loop_eq_fold, heq]
      refine diameterFold_first_max (getShortestPath g root) hns rfl ?_ pre 0 none ?_ hL
      · intro t ht
        rcases rootDist_spec hv (htips t (by
          rw [heq]
          exact List.mem_append.mpr (.inr (List.mem_cons_of_mem _ ht)))) with ⟨ms, hms, _⟩
        exact ⟨(ms, rootDist g root t), hms, hpost t ht⟩
      · intro t ht
        rcases rootDist_spec hv (htips t (by
          rw [heq]
          exact List.mem_append.mpr (.inl ht))) with ⟨ms, hms, _⟩
        exact ⟨(ms, rootDist g root t), hms, hpre t ht⟩
    refine ⟨rootDist g root x, some (ns, rootDist g root x), hmain, ⟨x, hxmem, rfl⟩, hall,
      ?_, ?_⟩
    · intro _
      exact ⟨x, hxmem, ns, hns, rfl, hhns, hlns⟩
    · intro h0
      rw [h0] at hL
      exact absurd hL (lt_irrefl 0)
  · have hx0 : rootDist g root x = 0 :=
      le_antisymm (not_lt.mp hL) (rootDist_nonneg hv (htips x hxmem))
    have hmain : graph_diameter g root (tipsOf g) =
        Except.ok ((0 : ℚ), (none : Option (List Nat × ℚ))) := by
      unfold graph_diameter
      rw [graph_diameter_loop_eq_fold]
      refine diameterFold_no_improve _ _ _ _ ?_
      intro t ht
      rcases rootDist_spec hv (htips t ht) with ⟨ms, hms, _⟩
      refine ⟨(ms, rootDist g root t), hms, ?_⟩
      show rootDist g root t ≤ 0
      rw [← hx0]
      exact hall t ht
    refine ⟨0, none, hmain, ⟨x, hxmem, hx0⟩, ?_, ?_, fun _ => rfl⟩
    · intro t ht
      rw [← hx0]
      exact hall t ht
    · intro h
      exact absurd h (lt_irrefl 0)

/-- Witness for C4 at the spec's example tree (root with two leaf children
at distances 3 and 5). -/
theorem C4_witness :
    ∃ l p, graph_diameter exampleTree35 1 (tipsOf exampleTree35) = Except.ok (l, p) ∧
      (∃ t ∈ tipsOf exampleTree35, rootDist exampleTree35 1 t = l) ∧
      (∀ t ∈ tipsOf exampleTree35, rootDist exampleTree35 1 t ≤ l) ∧
      (0 < l → ∃ t ∈ tipsOf exampleTree35, ∃ ns,
        getShortestPath exampleTree35 1 t = some (ns, l) ∧
        p = some (ns, l) ∧ ns.head? = some 1 ∧ ns.getLast? = some t) ∧
      (l = 0 → p = none) :=
  C4_max_length_and_path exampleTree35 1 exampleTree35_valid (by decide)

/-- C5, counterexample: in `zeroTieTree` the two tips 2 and 3 both attain
the maximal root-to-tip length (0), but `graph_diameter` returns the null
path `None`, not the path to the first-enumerated tip 2. -/
theorem C5_counterexample :
    validRootedTree zeroTieTree 1 ∧ tipsOf zeroTieTree = [2, 3] ∧
    rootDist zeroTieTree 1 2 = rootDist zeroTieTree 1 3 ∧
    (∀ t ∈ tipsOf zeroTieTree, rootDist zeroTieTree 1 t ≤ rootDist zeroTieTree 1 2) ∧
    graph_diameter zeroTieTree 1 (tipsOf zeroTieTree) =
      Except.ok ((0 : ℚ), (none : Option (List Nat × ℚ))) ∧
    (none : Option (List Nat × ℚ)) ≠ some ([1, 2], (0 : ℚ)) := by
  refine ⟨zeroTieTree_valid, rfl, ?_, ?_, ?_, by simp⟩
  · norm_num [rootDist, getShortestPath, pathToRootAux, parent, walkWeight, edgeWeight,
      zeroTieTree]
  · intro t ht
    have htv : t = 2 ∨ t = 3 := by
      rw [show tipsOf zeroTieTree = [2, 3] from rfl] at ht
      simpa using ht
    rcases htv with rfl | rfl <;>
      norm_num [rootDist, getShortestPath, pathToRootAux, parent, walkWeight, edgeWeight,
        zeroTieTree]
  · norm_num [graph_diameter, graph_diameter_loop, getShortestPath, pathToRootAux, parent,
      walkWeight, edgeWeight, tipsOf, outDeg, zeroTieTree]

/-- C5 (amended): on a valid rooted tree whose maximal root-to-tip length
is strictly positive and attained by two or more tips, `graph_diameter`
returns the path to whichever of those tips is enumerated first (the best
path is replaced only on strict improvement), and the result is stable
across repeated calls. -/
theorem C5_first_max_tip (g : WGraph) (root : Nat) (hv : validRootedTree g root)
    (pre : List Nat) (t₁ : Nat) (rest : List Nat)
    (hsplit : tipsOf g = pre ++ (t₁ :: rest))
    (hpre : ∀ t ∈ pre, rootDist g root t < rootDist g root t₁)
    (hrest : ∀ t ∈ rest, rootDist g root t ≤ rootDist g root t₁)
    (htie : ∃ t₂ ∈ rest, rootDist g root t₂ = rootDist g root t₁)
    (hpos : 0 < rootDist g root t₁) :
    ∃ ns, getShortestPath g root t₁ = some (ns, rootDist g root t₁) ∧
      graph_diameter g root (tipsOf g) =
        Except.ok (rootDist g root t₁, some (ns, rootDist g root t₁)) ∧
      graph_diameter g root (tipsOf g) = graph_diameter g root (tipsOf g) := by
  have htips : ∀ t ∈ tipsOf g, t ∈ g.vertices := fun t ht => (List.mem_filter.mp ht).1
  have ht₁ : t₁ ∈ tipsOf g := by
    rw [hsplit]
    exact List.mem_append.mpr (.inr (List.mem_cons_self _ _))
  rcases rootDist_spec hv (htips t₁ ht₁) with ⟨ns, hns, _, _, _⟩
  refine ⟨ns, hns, ?_, rfl⟩
  unfold graph_diameter
  rw [graph_diameter_loop_eq_fold, hsplit]
  refine diameterFold_first_max (getShortestPath g root) hns rfl ?_ pre 0 none ?_ hpos
  · intro t ht
    rcases rootDist_spec hv (htips t (by
      rw [hsplit]
      exact List.mem_append.mpr (.inr (List.mem_cons_of_mem _ ht)))) with ⟨ms, hms, _⟩
    exact ⟨(ms, rootDist g root t), hms, hrest t ht⟩
  · intro t ht
    rcases rootDist_spec hv (htips t (by
      rw [hsplit]
      exact List.mem_append.mpr (.inl ht))) with ⟨ms, hms, _⟩
    exact ⟨(ms, rootDist g root t), hms, hpre t ht⟩

/-- Witness for C5 at the tie tree whose two tips both lie at distance 5
from the root. -/
theorem C5_witness :
    ∃ ns, getShortestPath tieTree 1 2 = some (ns, rootDist tieTree 1 2) ∧
      graph_diameter tieTree 1 (tipsOf tieTree) =
        Except.ok (rootDist tieTree 1 2, some (ns, rootDist tieTree 1 2)) ∧
      graph_diameter tieTree 1 (tipsOf tieTree) = graph_diameter tieTree 1 (tipsOf tieTree) :=
  C5_first_max_tip tieTree 1 tieTree_valid [] 2 [3] (by decide) (by simp)
    (by
      intro t ht
      have htv : t = 3 := by simpa using ht
      subst htv
      norm_num [rootDist, getShortestPath, pathToRootAux, parent, walkWeight, edgeWeight,
        tieTree])
    (by
      refine ⟨3, by simp, ?_⟩
      norm_num [rootDist, getShortestPath, pathToRootAux, parent, walkWeight, edgeWeight,
        tieTree])
    (by
      norm_num [rootDist, getShortestPath, pathToRootAux, parent, walkWeight, edgeWeight,
        tieTree])

end GraphAnalysis

namespace ShollMerge

/-- C9: for every list of at least two rationals and its mean, `stdev`
computes the population standard deviation: its square `stdev_sq` is the
sum of squared deviations from the mean divided by `n` (the number of data
points, not `n - 1`), and the returned value `svar ** 0.5` is the square
root of that quotient. -/
theorem C9_population_stdev (data : List ℚ) (mean : ℚ)
    (hn : 2 ≤ data.length) (hm : mean = data.sum / (data.length : ℚ)) :
    ∃ v : ℚ, stdev_sq data mean = some v ∧
      v = ((data.map (fun x => (x - mean) ^ 2)).sum) / (data.length : ℚ) ∧
      Real.sqrt (v : ℝ) =
        Real.sqrt ((((data.map (fun x => (x - mean) ^ 2)).sum : ℚ) : ℝ) /
          (((data.length : ℚ)) : ℝ)) := by
  refine ⟨ss data mean / (data.length : ℚ), ?_, rfl, ?_⟩
  · simp only [stdev_sq]
    rw [if_neg (by omega)]
  · rw [show ss data mean = (data.map (fun x => (x - mean) ^ 2)).sum from rfl, Rat.cast_div]

end ShollMerge

namespace ShollMerge

/-- Witness for C9 at the data set `[0, 2]` with its mean 1. -/
theorem C9_witness :
    ∃ v : ℚ, stdev_sq [0, 2] 1 = some v ∧
      v = ((([0, 2] : List ℚ).map (fun x => (x - 1) ^ 2)).sum) / ((([0, 2] : List ℚ).length : ℚ)) ∧
      Real.sqrt (v : ℝ) =
        Real.sqrt ((((([0, 2] : List ℚ).map (fun x => (x - 1) ^ 2)).sum : ℚ) : ℝ) /
          (((([0, 2] : List ℚ).length : ℚ)) : ℝ)) :=
  C9_population_stdev [0, 2] 1 (by decide) (by norm_num)

end ShollMerge
